import Mathlib

/- Shallow embedding of scripts/generate_multilevel_sensor_constants.py:
   a code-generation script that fetches two JSON documents, normalizes
   sensor and scale labels into enum tokens, builds a scale-group table and
   a sensor-type table, renders constant definitions, and splices the
   hand-written tail of the previously generated file onto the fresh
   autogenerated content. -/

namespace MultilevelSensor

/-! ## ASCII character helpers

The script manipulates ASCII configuration labels with Python's `str.lower`,
`str.upper`, `str.title` and the `python-slugify` package. These character
maps model Python's ASCII case conversions (identical to Lean core's
`Char.toLower`/`Char.toUpper`). -/

/-- Lowercase an ASCII character, as Python `str.lower` does per character. -/
def charLower (c : Char) : Char :=
  if 65 ≤ c.toNat ∧ c.toNat ≤ 90 then Char.ofNat (c.toNat + 32) else c

/-- Uppercase an ASCII character, as Python `str.upper` does per character. -/
def charUpper (c : Char) : Char :=
  if 97 ≤ c.toNat ∧ c.toNat ≤ 122 then Char.ofNat (c.toNat - 32) else c

/-- Characters kept by the slug: lowercase ASCII letters and digits. -/
def isSlugChar (c : Char) : Bool :=
  (97 ≤ c.toNat && c.toNat ≤ 122) || (48 ≤ c.toNat && c.toNat ≤ 57)

/-- ASCII letters, the cased characters relevant to Python `str.title`. -/
def isAlphaCh (c : Char) : Bool :=
  (65 ≤ c.toNat && c.toNat ≤ 90) || (97 ≤ c.toNat && c.toNat ≤ 122)

theorem toNat_charOfNat (n : Nat) (h : n < 55296) : (Char.ofNat n).toNat = n := by
  have hv : n.isValidChar := Or.inl h
  simp [Char.ofNat, hv, Char.ofNatAux, Char.toNat, UInt32.toNat, BitVec.toNat_ofNatLt]

theorem charToNat_inj {c d : Char} (h : c.toNat = d.toNat) : c = d := by
  apply Char.ext
  apply UInt32.ext
  exact h

theorem charLower_toNat_of_upper {c : Char} (h1 : 65 ≤ c.toNat) (h2 : c.toNat ≤ 90) :
    (charLower c).toNat = c.toNat + 32 := by
  unfold charLower
  rw [if_pos ⟨h1, h2⟩, toNat_charOfNat]
  omega

theorem charLower_eq_self {c : Char} (h : ¬ (65 ≤ c.toNat ∧ c.toNat ≤ 90)) :
    charLower c = c := by
  unfold charLower
  rw [if_neg h]

theorem charUpper_toNat_of_lower {c : Char} (h1 : 97 ≤ c.toNat) (h2 : c.toNat ≤ 122) :
    (charUpper c).toNat = c.toNat - 32 := by
  unfold charUpper
  rw [if_pos ⟨h1, h2⟩, toNat_charOfNat]
  omega

theorem charUpper_eq_self {c : Char} (h : ¬ (97 ≤ c.toNat ∧ c.toNat ≤ 122)) :
    charUpper c = c := by
  unfold charUpper
  rw [if_neg h]

/-- A slug character is a lowercase letter or digit, on the `toNat` level. -/
theorem isSlugChar_iff {c : Char} :
    isSlugChar c = true ↔ (97 ≤ c.toNat ∧ c.toNat ≤ 122) ∨ (48 ≤ c.toNat ∧ c.toNat ≤ 57) := by
  simp [isSlugChar, Bool.or_eq_true, Bool.and_eq_true, decide_eq_true_iff]

theorem isAlphaCh_iff {c : Char} :
    isAlphaCh c = true ↔ (65 ≤ c.toNat ∧ c.toNat ≤ 90) ∨ (97 ≤ c.toNat ∧ c.toNat ≤ 122) := by
  simp [isAlphaCh, Bool.or_eq_true, Bool.and_eq_true, decide_eq_true_iff]

/-- Lowercasing undoes uppercasing on slug characters. -/
theorem charLower_charUpper {c : Char} (h : isSlugChar c = true) :
    charLower (charUpper c) = c := by
  rcases isSlugChar_iff.mp h with hl | hd
  · have hu : (charUpper c).toNat = c.toNat - 32 := charUpper_toNat_of_lower hl.1 hl.2
    apply charToNat_inj
    rw [charLower_toNat_of_upper (by omega) (by omega), hu]
    omega
  · have : charUpper c = c := charUpper_eq_self (by omega)
    rw [this, charLower_eq_self (by omega)]

/-- Lowercasing fixes slug characters. -/
theorem charLower_of_slug {c : Char} (h : isSlugChar c = true) : charLower c = c := by
  rcases isSlugChar_iff.mp h with hl | hd
  · exact charLower_eq_self (by omega)
  · exact charLower_eq_self (by omega)

/-- Uppercasing is idempotent on slug characters. -/
theorem charUpper_charUpper {c : Char} (h : isSlugChar c = true) :
    charUpper (charUpper c) = charUpper c := by
  rcases isSlugChar_iff.mp h with hl | hd
  · have hu : (charUpper c).toNat = c.toNat - 32 := charUpper_toNat_of_lower hl.1 hl.2
    apply charUpper_eq_self
    omega
  · have hc : charUpper c = c := charUpper_eq_self (by omega)
    rw [hc]
    exact hc

theorem charUpper_toNat_mem {c : Char} (h : isSlugChar c = true) :
    (65 ≤ (charUpper c).toNat ∧ (charUpper c).toNat ≤ 90) ∨
      (48 ≤ (charUpper c).toNat ∧ (charUpper c).toNat ≤ 57) := by
  rcases isSlugChar_iff.mp h with hl | hd
  · have hu : (charUpper c).toNat = c.toNat - 32 := charUpper_toNat_of_lower hl.1 hl.2
    omega
  · rw [charUpper_eq_self (by omega)]
    omega

/-! ## Slugify and normalization pipeline

`slugify(name, separator="_")` from python-slugify, with its default
options on ASCII input, lowercases the text, replaces every maximal run of
characters outside `[a-z0-9]` by the separator, and strips separators from
both ends.  We model it as: split the lowercased text into maximal runs of
slug characters and join the nonempty runs with `'_'`. -/

/-- Split a character list into chunks at non-slug characters, keeping
empty chunks (the same shape as `List.splitOnP`). The result is always
nonempty. -/
def splitRuns : List Char → List (List Char)
  | [] => [[]]
  | c :: cs =>
    if isSlugChar c then
      match splitRuns cs with
      | [] => [[c]]
      | w :: ws => (c :: w) :: ws
    else [] :: splitRuns cs

/-- Maximal nonempty runs of slug characters of the lowercased text. -/
def wordsL (l : List Char) : List (List Char) :=
  (splitRuns (l.map charLower)).filter (fun w => !w.isEmpty)

/-- Join chunks with a single separator character, as `sep.join` does. -/
def joinSep (sep : Char) : List (List Char) → List Char
  | [] => []
  | [w] => w
  | w :: w2 :: ws => w ++ sep :: joinSep sep (w2 :: ws)

/-- Model of `slugify(name, separator="_")` (python-slugify defaults) on
ASCII input without quotes, HTML entities or decimal commas — the fragment
exercised by the upstream configuration labels. -/
def slugifyUnderscore (s : String) : String := ⟨joinSep '_' (wordsL s.data)⟩

/-- Scan for the first closing parenthesis, returning the remainder after it. -/
def afterRparen : List Char → Option (List Char)
  | [] => none
  | c :: cs => if c = ')' then some cs else afterRparen cs

theorem afterRparen_length : ∀ {cs r : List Char}, afterRparen cs = some r → r.length < cs.length := by
  intro cs
  induction cs with
  | nil => intro r h; simp [afterRparen] at h
  | cons c cs ih =>
    intro r h
    by_cases hc : c = ')'
    · simp [afterRparen, hc] at h
      simp [← h]
    · simp [afterRparen, hc] at h
      exact Nat.lt_succ_of_lt (ih h)

/-- Fuel-driven worker for `removeParenL`; any fuel at least the length of
the list yields the fixpoint (each step consumes at least one character). -/
def removeParenFuel : Nat → List Char → List Char
  | 0, l => l
  | _ + 1, [] => []
  | fuel + 1, c :: cs =>
    if c = '(' then
      match afterRparen cs with
      | some rest => removeParenFuel fuel rest
      | none => c :: removeParenFuel fuel cs
    else c :: removeParenFuel fuel cs

/-- Model of `remove_parenthesis`: `re.sub(r"\([^)]*\)", "", text)` deletes
every parenthesis group up to the next closing parenthesis, leftmost first;
an opening parenthesis with no later closing one is kept. -/
def removeParenL (l : List Char) : List Char := removeParenFuel l.length l

/-- Model of Python `str.title()` on ASCII text: a letter directly after a
letter is lowercased, a letter after a non-letter (or at the start) is
uppercased, every other character is kept and resets the word state. -/
def pyTitleAux : Bool → List Char → List Char
  | _, [] => []
  | prevAlpha, c :: cs =>
    if isAlphaCh c then
      (if prevAlpha then charLower c else charUpper c) :: pyTitleAux true cs
    else c :: pyTitleAux false cs

def pyTitle (s : String) : String := ⟨pyTitleAux false s.data⟩

/-- Fuel-driven worker for `replaceAllL`; any fuel at least the length of
the list yields the fixpoint (each step consumes at least one character). -/
def replaceAllFuel (pat rep : List Char) : Nat → List Char → List Char
  | 0, l => l
  | _ + 1, [] => []
  | fuel + 1, c :: cs =>
    if pat ≠ [] ∧ pat = (c :: cs).take pat.length then
      rep ++ replaceAllFuel pat rep fuel ((c :: cs).drop pat.length)
    else c :: replaceAllFuel pat rep fuel cs

/-- Model of Python `str.replace(pat, rep)` for a nonempty pattern:
replace all leftmost non-overlapping occurrences. -/
def replaceAllL (pat rep l : List Char) : List Char := replaceAllFuel pat rep l.length l

def replaceAll (pat rep s : String) : String := ⟨replaceAllL pat.data rep.data s.data⟩

/-- Embedding of `remove_parenthesis` from the script. -/
def remove_parenthesis (text : String) : String := ⟨removeParenL text.data⟩

/-- Embedding of `enum_name_format` from the script:
`slugify(name, separator="_").upper()`, with the parenthesis text removed
first when requested. -/
def enum_name_format (name : String) (should_remove_parenthesis_ : Bool) : String :=
  let n := if should_remove_parenthesis_ then remove_parenthesis name else name
  ⟨(slugifyUnderscore n).data.map charUpper⟩

/-- Embedding of `normalize_name` from the script:
`enum_name_format(name, True).replace("_", " ").title()`. -/
def normalize_name (name : String) : String :=
  pyTitle (replaceAll "_" " " (enum_name_format name true))

/-- Embedding of `format_for_class_name` from the script:
`f"{normalize_name(name).replace(' ', '')}Scale"`. -/
def format_for_class_name (name : String) : String :=
  replaceAll " " "" (normalize_name name) ++ "Scale"

example : enum_name_format "Distance (ft/m)" false = "DISTANCE_FT_M" := by decide
example : enum_name_format "Distance (ft/m)" true = "DISTANCE" := by decide
example : enum_name_format "Temperature (Air)" true = "TEMPERATURE" := by decide
example : normalize_name "temperature" = "Temperature" := by decide
example : normalize_name "WATER_TEMPERATURE" = "Water Temperature" := by decide
example : format_for_class_name "Water Temperature" = "WaterTemperatureScale" := by decide
example : format_for_class_name "WATER_TEMPERATURE" = "WaterTemperatureScale" := by decide
example : enum_name_format "Celsius" true = "CELSIUS" := by decide
example : enum_name_format "Air temperature" true = "AIR_TEMPERATURE" := by decide

/-! ## String ordering

Python compares strings lexicographically by code point; `sorted` is
ascending and stable. We embed that order directly on the character lists
(Mathlib's `String` order is not kernel-computable). -/

/-- Strict lexicographic comparison of character lists by code point. -/
def strLtB : List Char → List Char → Bool
  | [], [] => false
  | [], _ :: _ => true
  | _ :: _, [] => false
  | a :: as, b :: bs =>
    if a.toNat < b.toNat then true
    else if b.toNat < a.toNat then false
    else strLtB as bs

def strLeB (a b : List Char) : Bool := !(strLtB b a)

/-- Python's `<` on strings. -/
def strLt (a b : String) : Prop := strLtB a.data b.data = true

/-- Python's `<=` on strings. -/
def strLe (a b : String) : Prop := strLeB a.data b.data = true

instance : DecidableRel strLt :=
  fun a b => inferInstanceAs (Decidable (strLtB a.data b.data = true))

instance : DecidableRel strLe :=
  fun a b => inferInstanceAs (Decidable (strLeB a.data b.data = true))

theorem strLtB_irrefl : ∀ l : List Char, strLtB l l = false := by
  intro l
  induction l with
  | nil => rfl
  | cons c cs ih => simp [strLtB, ih]

theorem strLtB_not_both : ∀ a b : List Char, strLtB a b = true → strLtB b a = false := by
  intro a
  induction a with
  | nil =>
    intro b h
    cases b with
    | nil => simp [strLtB] at h
    | cons y ys => rfl
  | cons x xs ih =>
    intro b h
    cases b with
    | nil => simp [strLtB] at h
    | cons y ys =>
      simp only [strLtB] at h ⊢
      rcases Nat.lt_trichotomy x.toNat y.toNat with hlt | heq | hgt
      · rw [if_neg (by omega), if_pos hlt]
      · rw [if_neg (by omega), if_neg (by omega)] at h ⊢
        exact ih ys h
      · rw [if_neg (by omega), if_pos hgt] at h
        exact absurd h (by simp)

theorem strLtB_eq_of_not_lt : ∀ a b : List Char,
    strLtB a b = false → strLtB b a = false → a = b := by
  intro a
  induction a with
  | nil =>
    intro b h1 _
    cases b with
    | nil => rfl
    | cons y ys => simp [strLtB] at h1
  | cons x xs ih =>
    intro b h1 h2
    cases b with
    | nil => simp [strLtB] at h2
    | cons y ys =>
      simp only [strLtB] at h1 h2
      rcases Nat.lt_trichotomy x.toNat y.toNat with hlt | heq | hgt
      · rw [if_pos hlt] at h1
        exact absurd h1 (by simp)
      · rw [if_neg (by omega), if_neg (by omega)] at h1 h2
        rw [charToNat_inj heq, ih ys h1 h2]
      · rw [if_pos hgt] at h2
        exact absurd h2 (by simp)

theorem strLtB_le_trans : ∀ a b c : List Char,
    strLtB b a = false → strLtB c b = false → strLtB c a = false := by
  intro a
  induction a with
  | nil =>
    intro b c h1 h2
    cases c with
    | nil => rfl
    | cons z zs => rfl
  | cons x xs ih =>
    intro b c h1 h2
    cases c with
    | nil =>
      cases b with
      | nil => simp [strLtB] at h1
      | cons y ys => simp [strLtB] at h2
    | cons z zs =>
      cases b with
      | nil => simp [strLtB] at h1
      | cons y ys =>
        simp only [strLtB] at h1 h2 ⊢
        rcases Nat.lt_trichotomy z.toNat x.toNat with hlt | heq | hgt
        · exfalso
          rcases Nat.lt_trichotomy y.toNat x.toNat with h3 | h4 | h5
          · rw [if_pos h3] at h1
            exact absurd h1 (by simp)
          · rw [if_pos (by omega)] at h2
            exact absurd h2 (by simp)
          · rw [if_pos (by omega)] at h2
            exact absurd h2 (by simp)
        · rw [if_neg (by omega), if_neg (by omega)]
          rcases Nat.lt_trichotomy y.toNat x.toNat with h3 | h4 | h5
          · rw [if_pos h3] at h1
            exact absurd h1 (by simp)
          · rw [if_neg (by omega), if_neg (by omega)] at h1
            rw [if_neg (by omega), if_neg (by omega)] at h2
            exact ih ys zs h1 h2
          · rw [if_pos (by omega)] at h2
            exact absurd h2 (by simp)
        · rw [if_neg (by omega), if_pos hgt]

theorem strLe_total (a b : String) : strLe a b ∨ strLe b a := by
  unfold strLe strLeB
  rcases h : strLtB b.data a.data with _ | _
  · left
    simp
  · right
    simp [strLtB_not_both _ _ h]

theorem strLe_trans_thm {a b c : String} (h1 : strLe a b) (h2 : strLe b c) : strLe a c := by
  unfold strLe strLeB at h1 h2 ⊢
  simp only [Bool.not_eq_true'] at h1 h2 ⊢
  exact strLtB_le_trans a.data b.data c.data h1 h2

theorem strLe_antisymm_thm {a b : String} (h1 : strLe a b) (h2 : strLe b a) : a = b := by
  unfold strLe strLeB at h1 h2
  simp only [Bool.not_eq_true'] at h1 h2
  exact String.ext (strLtB_eq_of_not_lt a.data b.data h2 h1)

theorem strLt_of_strLe_ne {a b : String} (h1 : strLe a b) (h2 : a ≠ b) : strLt a b := by
  unfold strLe strLeB at h1
  simp only [Bool.not_eq_true'] at h1
  unfold strLt
  rcases h : strLtB a.data b.data with _ | _
  · exact absurd (String.ext (strLtB_eq_of_not_lt a.data b.data h h1)) h2
  · rfl

/-- Key order on association entries: `sorted(..., key=lambda kv: kv[0])`. -/
def keyLe {α : Type} (a b : String × α) : Prop := strLe a.1 b.1

instance {α : Type} : DecidableRel (@keyLe α) :=
  fun a b => inferInstanceAs (Decidable (strLe a.1 b.1))

instance {α : Type} : IsTotal (String × α) keyLe where
  total a b := strLe_total a.1 b.1

instance {α : Type} : IsTrans (String × α) keyLe where
  trans _ _ _ h1 h2 := strLe_trans_thm h1 h2

instance : IsTotal String strLe where
  total a b := strLe_total a b

instance : IsTrans String strLe where
  trans _ _ _ h1 h2 := strLe_trans_thm h1 h2

/-! ## Model builder -/

/-- Value of one hex digit, as accepted by Python `int(_, 16)`. -/
def hexDigitVal (c : Char) : Option Nat :=
  if 48 ≤ c.toNat ∧ c.toNat ≤ 57 then some (c.toNat - 48)
  else if 97 ≤ c.toNat ∧ c.toNat ≤ 102 then some (c.toNat - 87)
  else if 65 ≤ c.toNat ∧ c.toNat ≤ 70 then some (c.toNat - 55)
  else none

def hexAux : Nat → List Char → Option Nat
  | acc, [] => some acc
  | acc, c :: cs =>
    match hexDigitVal c with
    | some d => hexAux (acc * 16 + d) cs
    | none => none

/-- Model of Python `int(s, 16)` on the fragment the configuration keys
use: an optional `0x`/`0X` marker followed by one or more hex digits (no
sign, whitespace or underscores); anything else raises, modelled as `none`. -/
def int_base16 (s : String) : Option Nat :=
  let l := s.data
  let l2 := if l.take 2 = ['0', 'x'] ∨ l.take 2 = ['0', 'X'] then l.drop 2 else l
  if l2.isEmpty then none else hexAux 0 l2

/-- Python dict assignment `m[k] = v`: overwrite in place, or append. -/
def assocSet {α : Type} : List (String × α) → String → α → List (String × α)
  | [], k, v => [(k, v)]
  | (k0, v0) :: m, k, v => if k0 = k then (k, v) :: m else (k0, v0) :: assocSet m k v

/-- Model of `dict(sorted(m.items(), key=lambda kv: kv[0]))`: a stable
ascending sort by key. -/
def sortByKey {α : Type} (m : List (String × α)) : List (String × α) :=
  List.insertionSort keyLe m

/-- Embedding of `normalize_scale_definition` from the script: parse each
hex id, normalize each label into a token (parentheses always stripped),
store under the token with dict semantics — a repeated token silently
overwrites the earlier entry — and sort the items by token. -/
def normalize_scale_definition (scale_definitions : List (String × String)) :
    Option (List (String × Nat)) := do
  let m ← scale_definitions.foldlM
    (fun m kv => do
      let i ← int_base16 kv.1
      pure (assocSet m (enum_name_format kv.2 true) i))
    []
  pure (sortByKey m)

/-- Value stored for one sensor in the `sensors` dictionary. -/
structure SensorInfo where
  id : Nat
  label : String
  scale : String
deriving DecidableEq

/-- A raw scale reference from sensorTypes.json: either the symbolic
`"$SCALES:name"` string or an inline mapping of hex ids to labels. -/
inductive ScaleRef where
  | symbolic (ref : String)
  | inlineDef (defs : List (String × String))
deriving DecidableEq

/-- One raw entry of sensorTypes.json: hex id key, label, scale reference. -/
structure RawSensor where
  key : String
  label : String
  scales : ScaleRef
deriving DecidableEq

abbrev ScalesTable := List (String × List (String × Nat))

abbrev SensorsTable := List (String × SensorInfo)

/-- The `scales` dictionary comprehension over the default scales document:
group name normalized by `normalize_name`, entries by
`normalize_scale_definition`. -/
def buildDefaultScales (default_scales : List (String × List (String × String))) :
    Option ScalesTable :=
  default_scales.foldlM
    (fun m kv => do
      let nd ← normalize_scale_definition kv.2
      pure (assocSet m (normalize_name kv.1) nd))
    []

/-- Token computation of the sensors loop: parentheses are removed unless
the numeric id is one of the two exception ids 87 and 88. -/
def sensorToken (id_ : Nat) (label : String) : String :=
  enum_name_format label (!(id_ == 87 || id_ == 88))

/-- One iteration of the `for sensor_id, sensor_props in sensor_types`
loop: parse the hex id, build the token with the 87/88 exception, store
the sensor with dict semantics (overwriting on token collision), and
resolve the scale reference — a symbolic reference is rewritten textually
with no existence check against the built groups; an inline mapping
becomes a new scale group keyed by the sensor token. -/
def processOne (st : ScalesTable × SensorsTable) (r : RawSensor) :
    Option (ScalesTable × SensorsTable) := do
  let i ← int_base16 r.key
  let name := sensorToken i r.label
  match r.scales with
  | ScaleRef.symbolic ref =>
      pure (st.1, assocSet st.2 name ⟨i, r.label, normalize_name (replaceAll "$SCALES:" "" ref)⟩)
  | ScaleRef.inlineDef defs => do
      let nd ← normalize_scale_definition defs
      pure (assocSet st.1 name nd, assocSet st.2 name ⟨i, r.label, normalize_name name⟩)

/-- The whole sensors loop over `sensor_types` followed by the two final
sorts (`scales = dict(sorted(...))` and `sensors = dict(sorted(...))`). -/
def processSensors (scales0 : ScalesTable) (raw : List RawSensor) :
    Option (ScalesTable × SensorsTable) := do
  let st ← raw.foldlM processOne (scales0, [])
  pure (sortByKey st.1, sortByKey st.2)

example : int_base16 "0x01" = some 1 := by decide
example : int_base16 "0xff" = some 255 := by decide
example : int_base16 "0x" = none := by decide
example : normalize_scale_definition [("0x00", "Celsius"), ("0x01", "Fahrenheit")] =
    some [("CELSIUS", 0), ("FAHRENHEIT", 1)] := by decide
example : normalize_scale_definition
      [("0x00", "Temperature (Air)"), ("0x01", "Temperature (Water)")] =
    some [("TEMPERATURE", 1)] := by decide
example : replaceAll "$SCALES:" "" "$SCALES:temperature" = "temperature" := by decide
example : processSensors [] [⟨"0x01", "Air temperature", ScaleRef.symbolic "$SCALES:nonexistent"⟩] =
    some ([], [("AIR_TEMPERATURE", ⟨1, "Air temperature", "Nonexistent"⟩)]) := by decide

/-! ## Splicer -/

/-- The fixed end-of-autogenerated-content marker text searched for in the
previous file. -/
def endMarkerText : String := "**END OF AUTOGENERATED CONTENT**"

/-- Python's `pat in line` substring test. -/
def hasSub (pat : List Char) : List Char → Bool
  | [] => pat.isEmpty
  | c :: cs => ((c :: cs).take pat.length == pat) || hasSub pat cs

/-- Index of the first line containing the marker, as computed by
`next(i for i, line in enumerate(existing_const_file) if "**END OF
AUTOGENERATED CONTENT**" in line)`. -/
def findMarkerIdx : List String → Option Nat
  | [] => none
  | l :: ls =>
    if hasSub endMarkerText.data l.data then some 0
    else (findMarkerIdx ls).map (· + 1)

/-- Python `line.strip("\n")`: remove leading and trailing newline
characters. -/
def stripNl (s : String) : String :=
  ⟨((s.data.dropWhile (· == '\n')).reverse.dropWhile (· == '\n')).reverse⟩

/-- Lines 243..259 of the script: find the marker line in the previous
file, set the start of the manually written code six lines past it, and
append those lines (each stripped of newline characters) after the fresh
lines. `none` models the uncaught `StopIteration` raised when no line
contains the marker, which aborts the script before anything is written. -/
def splice (newLines previousLines : List String) : Option (List String) :=
  match findMarkerIdx previousLines with
  | none => none
  | some i =>
    let start := i + 6
    if previousLines.length > start then
      some (newLines ++ (previousLines.drop start).map stripNl)
    else some newLines

def joinLinesNl : List String → String
  | [] => ""
  | [l] => l
  | l :: l2 :: ls => l ++ "\n" ++ joinLinesNl (l2 :: ls)

/-- `CONST_FILE_PATH.write_text("\n".join(lines))`: the text written to the
destination file, produced only when splicing succeeded. -/
def write_text (newLines previousLines : List String) : Option String :=
  (splice newLines previousLines).map joinLinesNl

/-- The eight lines appended at lines 230..241 of the script: the
end-of-autogenerated-content comment block that always terminates the
freshly rendered content. -/
def endBlockLines : List String :=
  [ "",
    "# ----------------------------------------------------------------------------------- #",
    "# **END OF AUTOGENERATED CONTENT** (DO NOT EDIT/REMOVE THIS COMMENT BLOCK AND DO NOT  #",
    "# EDIT ANYTHING ABOVE IT. IF A NEW IMPORT IS NEEDED, UPDATE THE LINES AROUND 135      #",
    "# IN scripts/generate_multilevel_sensor_constants.py THEN RE-RUN THE SCRIPT. ALL      #",
    "# LINES WRITTEN BELOW THIS BLOCK WILL BE PRESERVED AS LONG AS THIS BLOCK REMAINS)     #",
    "# ----------------------------------------------------------------------------------- #",
    "" ]

/-! ## Unit index -/

/-- `defaultdict(list)` append: `m[k].append(v)`. -/
def addUnit : List (String × List String) → String → String → List (String × List String)
  | [], k, v => [(k, [v])]
  | (k0, l) :: m, k, v =>
    if k0 = k then (k0, l ++ [v]) :: m else (k0, l) :: addUnit m k v

/-- The `_unit_name_to_enum_map` loop (lines 190..204): for every scale
group in table order and every unit token of the group in group order,
append the class-qualified enumerant reference to the token's list. -/
def collectUnits (scales : ScalesTable) : List (String × List String) :=
  scales.foldl
    (fun m g =>
      g.2.foldl (fun m2 e => addUnit m2 e.1 (format_for_class_name g.1 ++ "." ++ e.1)) m)
    []

/-- `unit_name_to_enum_map` (lines 205..209): the collected map sorted by
key, with every value list sorted ascending (the emission at line 227
sorts each list again, which is idempotent). -/
def unitIndex (scales : ScalesTable) : List (String × List String) :=
  (sortByKey (collectUnits scales)).map (fun kl => (kl.1, kl.2.insertionSort strLe))

/-- Association lookup with default `[]`, used to reason about the
defaultdict. -/
def findUnits : List (String × List String) → String → List String
  | [], _ => []
  | (k, l) :: m, t => if k = t then l else findUnits m t

/-! ## Version-control dirty check -/

/-- Completed `subprocess.run` call, keeping only the `stdout` attribute.
Without `capture_output=True` (or `stdout=PIPE`), Python leaves that
attribute as `None` regardless of what the child process printed. -/
structure CompletedProc where
  stdoutAttr : Option String

/-- `subprocess.run(["git", "diff", "--stat"], check=True)` at line 272:
the script passes no `capture_output`, so the returned object's `stdout`
is `None` whatever the diff printed to the terminal. -/
def runGitDiffStat (diffOutput : String) : CompletedProc :=
  let _ := diffOutput
  ⟨none⟩

/-- Lines 271..280: exit status of the dirty-tree check as a function of
the real `git diff --stat` output; the script calls `sys.exit(1)` only
when the `stdout` attribute `is not None`. -/
def gitDiffExitCode (diffOutput : String) : Nat :=
  if (runGitDiffStat diffOutput).stdoutAttr ≠ none then 1 else 0

example : splice ["A"] ["x **END OF AUTOGENERATED CONTENT** y", "a", "b", "c", "d", "e", "k1", "k2"] =
    some ["A", "k1", "k2"] := by decide
example : splice ["A"] ["x", "y"] = none := by decide
example : splice endBlockLines endBlockLines = some endBlockLines := by decide
example : findMarkerIdx endBlockLines = some 2 := by decide
example : unitIndex [("Temperature", [("CELSIUS", 0), ("FAHRENHEIT", 1)]),
      ("WATER_TEMPERATURE", [("CELSIUS", 0)])] =
    [("CELSIUS", ["TemperatureScale.CELSIUS", "WaterTemperatureScale.CELSIUS"]),
     ("FAHRENHEIT", ["TemperatureScale.FAHRENHEIT"])] := by decide

/-! ## Splicer lemmas -/

theorem findMarkerIdx_eq_none {prev : List String}
    (h : ∀ l ∈ prev, hasSub endMarkerText.data l.data = false) :
    findMarkerIdx prev = none := by
  induction prev with
  | nil => rfl
  | cons l ls ih =>
    have h0 := h l (by simp)
    have hrest : findMarkerIdx ls = none := ih (fun x hx => h x (by simp [hx]))
    simp [findMarkerIdx, h0, hrest]

theorem dropWhile_eq_self_of_no {p : Char → Bool} {l : List Char}
    (h : ∀ c ∈ l, p c = false) : l.dropWhile p = l := by
  cases l with
  | nil => rfl
  | cons c cs =>
    rw [List.dropWhile_cons, h c (by simp)]
    simp

theorem stripNl_eq_self {s : String} (h : ∀ c ∈ s.data, (c == '\n') = false) :
    stripNl s = s := by
  unfold stripNl
  rw [dropWhile_eq_self_of_no h,
    dropWhile_eq_self_of_no (fun c hc => h c (by simpa using hc)),
    List.reverse_reverse]

theorem dropWhile_dropWhile (p : Char → Bool) (l : List Char) :
    (l.dropWhile p).dropWhile p = l.dropWhile p := by
  induction l with
  | nil => rfl
  | cons c cs ih =>
    rw [List.dropWhile_cons]
    by_cases hc : p c = true
    · rw [if_pos hc]
      exact ih
    · rw [if_neg hc, List.dropWhile_cons, if_neg hc]

theorem dropWhile_head_false {p : Char → Bool} {c : Char} {cs : List Char}
    (h : List.dropWhile p (c :: cs) = c :: cs) : p c = false := by
  rcases hc : p c with _ | _
  · rfl
  · exfalso
    rw [List.dropWhile_cons, if_pos hc] at h
    have hlen := congrArg List.length h
    have hle : (List.dropWhile p cs).length ≤ cs.length :=
      (List.dropWhile_suffix p).length_le
    simp at hlen
    omega

/-- Stripping from the right preserves being a fixpoint of stripping from
the left. -/
theorem strip_fix_left (p : Char → Bool) (X : List Char) (hXfix : X.dropWhile p = X) :
    ((X.reverse.dropWhile p).reverse).dropWhile p = (X.reverse.dropWhile p).reverse := by
  have hpre : (X.reverse.dropWhile p).reverse <+: X := by
    have hsuf : X.reverse.dropWhile p <:+ X.reverse := List.dropWhile_suffix p
    have h2 := hsuf.reverse
    simpa using h2
  cases hdc : (X.reverse.dropWhile p).reverse with
  | nil => rfl
  | cons c cs =>
    obtain ⟨r, hr⟩ := hpre
    rw [hdc] at hr
    have hXc : X = c :: (cs ++ r) := by
      rw [← hr]
      simp
    have hpc : p c = false := by
      apply @dropWhile_head_false p c (cs ++ r)
      rw [← hXc]
      exact hXfix
    rw [List.dropWhile_cons, hpc]
    simp

theorem stripNl_idem (s : String) : stripNl (stripNl s) = stripNl s := by
  apply String.ext
  have hdata : (stripNl s).data
      = ((s.data.dropWhile (· == '\n')).reverse.dropWhile (· == '\n')).reverse := rfl
  have hA := strip_fix_left (· == '\n') (s.data.dropWhile (· == '\n'))
    (dropWhile_dropWhile (· == '\n') s.data)
  show (((stripNl s).data.dropWhile (· == '\n')).reverse.dropWhile (· == '\n')).reverse
      = (stripNl s).data
  rw [hdata, hA]
  simp only [List.reverse_reverse]
  rw [dropWhile_dropWhile]

theorem findMarkerIdx_cons (l : String) (ls : List String) :
    findMarkerIdx (l :: ls) =
      if hasSub endMarkerText.data l.data then some 0
      else (findMarkerIdx ls).map (· + 1) := rfl

theorem findMarkerIdx_append_some {xs : List String} {j : Nat} (ys : List String)
    (h : findMarkerIdx xs = some j) : findMarkerIdx (xs ++ ys) = some j := by
  induction xs generalizing j with
  | nil => simp [findMarkerIdx] at h
  | cons l ls ih =>
    rw [findMarkerIdx_cons] at h
    rw [List.cons_append, findMarkerIdx_cons]
    by_cases hl : hasSub endMarkerText.data l.data
    · rw [if_pos hl] at h ⊢
      exact h
    · rw [if_neg hl] at h ⊢
      obtain ⟨j0, hj0, hj⟩ := Option.map_eq_some'.mp h
      rw [ih hj0]
      simp [hj]

theorem findMarkerIdx_append_none {xs : List String} (ys : List String)
    (h : findMarkerIdx xs = none) :
    findMarkerIdx (xs ++ ys) = (findMarkerIdx ys).map (· + xs.length) := by
  induction xs with
  | nil =>
    cases o : findMarkerIdx ys <;> simp [o]
  | cons l ls ih =>
    rw [findMarkerIdx_cons] at h
    rw [List.cons_append, findMarkerIdx_cons]
    by_cases hl : hasSub endMarkerText.data l.data
    · rw [if_pos hl] at h
      exact absurd h (by simp)
    · rw [if_neg hl] at h ⊢
      have hls : findMarkerIdx ls = none := Option.map_eq_none'.mp h
      rw [ih hls]
      cases o : findMarkerIdx ys with
      | none => simp
      | some j =>
        simp only [Option.map_some', List.length_cons]
        congr 1

/-! ## Normalization lemmas -/

theorem char_ne_of_toNat_ne {c d : Char} (h : c.toNat ≠ d.toNat) : c ≠ d :=
  fun he => h (congrArg Char.toNat he)

theorem replaceAllFuel_single (p r : Char) :
    ∀ (f : Nat) (l : List Char), l.length ≤ f →
      replaceAllFuel [p] [r] f l = l.map (fun c => if c = p then r else c) := by
  intro f
  induction f with
  | zero =>
    intro l hl
    cases l with
    | nil => rfl
    | cons c cs => simp at hl
  | succ f ih =>
    intro l hl
    cases l with
    | nil => rfl
    | cons c cs =>
      simp only [List.length_cons, Nat.succ_le_succ_iff] at hl
      by_cases hc : c = p
      · have hcond : ([p] : List Char) ≠ [] ∧ [p] = (c :: cs).take ([p] : List Char).length := by
          refine ⟨by simp, ?_⟩
          simp [hc]
        rw [replaceAllFuel, if_pos hcond]
        simp only [List.length_singleton, List.drop_succ_cons, List.drop_zero,
          List.map_cons, hc, if_pos rfl]
        rw [ih cs hl]
        rfl
      · have hcond : ¬ (([p] : List Char) ≠ [] ∧ [p] = (c :: cs).take ([p] : List Char).length) := by
          intro hcd
          have := hcd.2
          simp at this
          exact hc this.symm
        rw [replaceAllFuel, if_neg hcond]
        rw [ih cs hl]
        simp [hc]

/-- replace over a whole string with a one-character pattern and
replacement is a character map. -/
theorem replaceAllL_single (p r : Char) (l : List Char) :
    replaceAllL [p] [r] l = l.map (fun c => if c = p then r else c) :=
  replaceAllFuel_single p r l.length l (Nat.le_refl _)

/-- replace with a one-character pattern and empty replacement is a
filter. -/
theorem replaceAllFuel_single_del (p : Char) :
    ∀ (f : Nat) (l : List Char), l.length ≤ f →
      replaceAllFuel [p] [] f l = l.filter (fun c => !(c = p)) := by
  intro f
  induction f with
  | zero =>
    intro l hl
    cases l with
    | nil => rfl
    | cons c cs => simp at hl
  | succ f ih =>
    intro l hl
    cases l with
    | nil => rfl
    | cons c cs =>
      simp only [List.length_cons, Nat.succ_le_succ_iff] at hl
      by_cases hc : c = p
      · have hcond : ([p] : List Char) ≠ [] ∧ [p] = (c :: cs).take ([p] : List Char).length := by
          refine ⟨by simp, ?_⟩
          simp [hc]
        rw [replaceAllFuel, if_pos hcond]
        simp only [List.length_singleton, List.drop_succ_cons, List.drop_zero, List.nil_append]
        rw [ih cs hl]
        simp [hc]
      · have hcond : ¬ (([p] : List Char) ≠ [] ∧ [p] = (c :: cs).take ([p] : List Char).length) := by
          intro hcd
          have := hcd.2
          simp at this
          exact hc this.symm
        rw [replaceAllFuel, if_neg hcond]
        rw [ih cs hl]
        simp [hc]

theorem replaceAllL_single_del (p : Char) (l : List Char) :
    replaceAllL [p] [] l = l.filter (fun c => !(c = p)) :=
  replaceAllFuel_single_del p l.length l (Nat.le_refl _)

/-- removeParenFuel is the identity on parenthesis-free text, for any
fuel. -/
theorem removeParenFuel_no_paren :
    ∀ (f : Nat) (l : List Char), '(' ∉ l → removeParenFuel f l = l := by
  intro f
  induction f with
  | zero => intro l _; rfl
  | succ f ih =>
    intro l hl
    cases l with
    | nil => rfl
    | cons c cs =>
      have hc : ¬ (c = '(') := fun he => hl (by simp [he])
      rw [removeParenFuel, if_neg hc]
      rw [ih cs (fun hm => hl (by simp [hm]))]

theorem removeParenL_no_paren {l : List Char} (hl : '(' ∉ l) : removeParenL l = l :=
  removeParenFuel_no_paren l.length l hl

theorem splitRuns_ne_nil : ∀ l : List Char, splitRuns l ≠ [] := by
  intro l
  cases l with
  | nil => simp [splitRuns]
  | cons c cs =>
    rw [splitRuns]
    by_cases hc : isSlugChar c = true
    · rw [if_pos hc]
      cases splitRuns cs <;> simp
    · rw [if_neg hc]
      simp

theorem splitRuns_chars : ∀ (l : List Char), ∀ w ∈ splitRuns l, ∀ c ∈ w, isSlugChar c = true := by
  intro l
  induction l with
  | nil =>
    intro w hw c hc
    simp [splitRuns] at hw
    rw [hw] at hc
    simp at hc
  | cons a as ih =>
    intro w hw c hc
    rw [splitRuns] at hw
    by_cases ha : isSlugChar a = true
    · rw [if_pos ha] at hw
      cases hs : splitRuns as with
      | nil => exact absurd hs (splitRuns_ne_nil as)
      | cons z zs =>
        rw [hs] at hw
        rcases List.mem_cons.mp hw with hw1 | hw2
        · rw [hw1] at hc
          rcases List.mem_cons.mp hc with hc1 | hc2
          · rw [hc1]; exact ha
          · exact ih z (by rw [hs]; simp) c hc2
        · exact ih w (by rw [hs]; simp [hw2]) c hc
    · rw [if_neg ha] at hw
      rcases List.mem_cons.mp hw with hw1 | hw2
      · rw [hw1] at hc
        simp at hc
      · exact ih w hw2 c hc

theorem wordsL_spec (l : List Char) :
    ∀ w ∈ wordsL l, w ≠ [] ∧ ∀ c ∈ w, isSlugChar c = true := by
  intro w hw
  unfold wordsL at hw
  have hmem := List.mem_filter.mp hw
  refine ⟨by simpa using hmem.2, fun c hc => splitRuns_chars _ w hmem.1 c hc⟩

theorem joinSep_cons2 (sep : Char) (w w2 : List Char) (ws : List (List Char)) :
    joinSep sep (w :: w2 :: ws) = w ++ sep :: joinSep sep (w2 :: ws) := rfl

theorem pyTitleAux_cons (b : Bool) (c : Char) (cs : List Char) :
    pyTitleAux b (c :: cs) =
      if isAlphaCh c then (if b then charLower c else charUpper c) :: pyTitleAux true cs
      else c :: pyTitleAux false cs := rfl

theorem pyTitleAux_nil (b : Bool) : pyTitleAux b [] = [] := rfl

theorem joinSep_map (f : Char → Char) (sep : Char) :
    ∀ ws : List (List Char),
      (joinSep sep ws).map f = joinSep (f sep) (ws.map (List.map f)) := by
  intro ws
  match ws with
  | [] => rfl
  | [w] => rfl
  | w :: w2 :: rest =>
    rw [joinSep_cons2]
    simp only [List.map_append, List.map_cons]
    have ihh := joinSep_map f sep (w2 :: rest)
    simp only [List.map_cons] at ihh
    rw [ihh, joinSep_cons2]

theorem pyTitleAux_append_sep {sep : Char} (hsep : isAlphaCh sep = false) :
    ∀ (xs : List Char) (b : Bool) (rest : List Char),
      pyTitleAux b (xs ++ sep :: rest) = pyTitleAux b xs ++ sep :: pyTitleAux false rest := by
  intro xs
  induction xs with
  | nil =>
    intro b rest
    simp only [List.nil_append, pyTitleAux_cons, pyTitleAux_nil, hsep]
    simp
  | cons c cs ih =>
    intro b rest
    rw [List.cons_append, pyTitleAux_cons, pyTitleAux_cons]
    by_cases hc : isAlphaCh c = true
    · rw [if_pos hc, if_pos hc, ih true rest]
      rfl
    · rw [if_neg hc, if_neg hc, ih false rest]
      rfl

theorem pyTitleAux_joinSep :
    ∀ us : List (List Char),
      pyTitleAux false (joinSep ' ' us) = joinSep ' ' (us.map (pyTitleAux false)) := by
  intro us
  match us with
  | [] => rfl
  | [w] => rfl
  | w :: w2 :: rest =>
    rw [joinSep_cons2]
    rw [pyTitleAux_append_sep (by decide) w false (joinSep ' ' (w2 :: rest))]
    rw [pyTitleAux_joinSep (w2 :: rest)]
    simp only [List.map_cons]
    rw [joinSep_cons2]

theorem map_charLower_titleUp :
    ∀ (w : List Char), (∀ c ∈ w, isSlugChar c = true) → ∀ b : Bool,
      (pyTitleAux b (w.map charUpper)).map charLower = w := by
  intro w
  induction w with
  | nil => intro _ b; rfl
  | cons c cs ih =>
    intro hall b
    have hc : isSlugChar c = true := hall c (by simp)
    have hcs : ∀ x ∈ cs, isSlugChar x = true := fun x hx => hall x (by simp [hx])
    rw [List.map_cons, pyTitleAux_cons]
    by_cases ha : isAlphaCh (charUpper c) = true
    · rw [if_pos ha, List.map_cons, ih hcs true]
      congr 1
      cases b with
      | true =>
        show charLower (charLower (charUpper c)) = c
        rw [charLower_charUpper hc, charLower_of_slug hc]
      | false =>
        show charLower (charUpper (charUpper c)) = c
        rw [charUpper_charUpper hc, charLower_charUpper hc]
    · rw [if_neg ha, List.map_cons, ih hcs false]
      congr 1
      exact charLower_charUpper hc

theorem titleUp_not_paren :
    ∀ (w : List Char), (∀ c ∈ w, isSlugChar c = true) → ∀ b : Bool,
      '(' ∉ pyTitleAux b (w.map charUpper) := by
  intro w
  induction w with
  | nil => intro _ b; simp [pyTitleAux_nil]
  | cons c cs ih =>
    intro hall b
    have hc : isSlugChar c = true := hall c (by simp)
    have hcs : ∀ x ∈ cs, isSlugChar x = true := fun x hx => hall x (by simp [hx])
    have hm := charUpper_toNat_mem hc
    have hp40 : ('(' : Char).toNat = 40 := by decide
    rw [List.map_cons, pyTitleAux_cons]
    by_cases ha : isAlphaCh (charUpper c) = true
    · rw [if_pos ha]
      intro hmem
      rcases List.mem_cons.mp hmem with hh | ht
      · cases b with
        | true =>
          have hh2 : '(' = charLower (charUpper c) := by simpa using hh
          rcases hm with hup | hdig
          · have hv := charLower_toNat_of_upper hup.1 hup.2
            exact absurd hh2.symm (char_ne_of_toNat_ne (by rw [hv, hp40]; omega))
          · have hv : charLower (charUpper c) = charUpper c :=
              charLower_eq_self (by omega)
            rw [hv] at hh2
            exact absurd hh2.symm (char_ne_of_toNat_ne (by rw [hp40]; omega))
        | false =>
          simp only [Bool.false_eq_true, if_false] at hh
          rw [charUpper_charUpper hc] at hh
          have hm2 := charUpper_toNat_mem hc
          exact char_ne_of_toNat_ne (by omega) hh.symm
      · exact ih hcs true ht
    · rw [if_neg ha]
      intro hmem
      rcases List.mem_cons.mp hmem with hh | ht
      · exact char_ne_of_toNat_ne (by omega) hh.symm
      · exact ih hcs false ht

theorem joinSep_not_mem {x sep : Char} (hx : x ≠ sep) :
    ∀ ws : List (List Char), (∀ w ∈ ws, x ∉ w) → x ∉ joinSep sep ws := by
  intro ws
  match ws with
  | [] => intro _; simp [joinSep]
  | [w] =>
    intro h
    exact h w (by simp)
  | w :: w2 :: rest =>
    intro h
    rw [joinSep_cons2]
    intro hmem
    rcases List.mem_append.mp hmem with h1 | h2
    · exact h w (by simp) h1
    · rcases List.mem_cons.mp h2 with h3 | h4
      · exact hx h3
      · exact joinSep_not_mem hx (w2 :: rest) (fun v hv => h v (by simp [List.mem_cons.mp hv])) h4

theorem splitRuns_cons (c : Char) (cs : List Char) :
    splitRuns (c :: cs) =
      if isSlugChar c then
        match splitRuns cs with
        | [] => [[c]]
        | w :: ws => (c :: w) :: ws
      else [] :: splitRuns cs := rfl

theorem splitRuns_append_run :
    ∀ (w : List Char), (∀ c ∈ w, isSlugChar c = true) →
      ∀ (ys z : List Char) (zs : List (List Char)),
        splitRuns ys = z :: zs → splitRuns (w ++ ys) = (w ++ z) :: zs := by
  intro w
  induction w with
  | nil =>
    intro _ ys z zs hys
    simpa using hys
  | cons c cs ih =>
    intro hall ys z zs hys
    have hc : isSlugChar c = true := hall c (by simp)
    have hcs : ∀ x ∈ cs, isSlugChar x = true := fun x hx => hall x (by simp [hx])
    rw [List.cons_append, splitRuns_cons, if_pos hc, ih hcs ys z zs hys]
    rfl

theorem splitRuns_sep (rest : List Char) :
    splitRuns (' ' :: rest) = [] :: splitRuns rest := by
  rw [splitRuns_cons, if_neg (by decide)]

theorem wordsL_of_joinSep :
    ∀ W : List (List Char),
      (∀ w ∈ W, w ≠ [] ∧ ∀ c ∈ w, isSlugChar c = true) →
      (splitRuns (joinSep ' ' W)).filter (fun w => !w.isEmpty) = W := by
  intro W
  match W with
  | [] => intro _; rfl
  | [w] =>
    intro h
    have hw := h w (by simp)
    have hsr0 := splitRuns_append_run w hw.2 [] [] [] rfl
    rw [List.append_nil] at hsr0
    show (splitRuns w).filter (fun w => !w.isEmpty) = [w]
    rw [hsr0]
    have hne : (!w.isEmpty) = true := by
      cases w with
      | nil => exact absurd rfl hw.1
      | cons a as => rfl
    rw [List.filter_cons, if_pos hne]
    rfl
  | w :: w2 :: rest =>
    intro h
    have hw := h w (by simp)
    have hsr : splitRuns (joinSep ' ' (w :: w2 :: rest))
        = (w ++ []) :: splitRuns (joinSep ' ' (w2 :: rest)) := by
      rw [joinSep_cons2]
      exact splitRuns_append_run w hw.2 _ [] _ (splitRuns_sep _)
    rw [hsr, List.append_nil, List.filter_cons]
    have hne : (!w.isEmpty) = true := by
      cases w with
      | nil => exact absurd rfl hw.1
      | cons a as => rfl
    rw [if_pos hne]
    rw [wordsL_of_joinSep (w2 :: rest) (fun v hv => h v (by simp [List.mem_cons.mp hv]))]

/-- Normal form of `normalize_name`: the slug words of the
parenthesis-stripped input, each uppercased and then title-cased, joined
by single spaces. -/
theorem normalize_name_data (name : String) :
    (normalize_name name).data
      = joinSep ' ' ((wordsL (removeParenL name.data)).map
          (fun w => pyTitleAux false (w.map charUpper))) := by
  have h0 : (normalize_name name).data
      = pyTitleAux false (replaceAllL ['_'] [' ']
          ((joinSep '_' (wordsL (removeParenL name.data))).map charUpper)) := rfl
  rw [h0, replaceAllL_single, List.map_map]
  rw [joinSep_map]
  have hsep : ((fun c => if c = '_' then ' ' else c) ∘ charUpper) '_' = ' ' := by decide
  rw [hsep, pyTitleAux_joinSep, List.map_map]
  apply congrArg (joinSep ' ')
  apply List.map_congr_left
  intro w hw
  have hws := wordsL_spec (removeParenL name.data) w hw
  show pyTitleAux false (w.map ((fun c => if c = '_' then ' ' else c) ∘ charUpper))
      = pyTitleAux false (w.map charUpper)
  congr 1
  apply List.map_congr_left
  intro c hc
  have hcs : isSlugChar c = true := hws.2 c hc
  show (if charUpper c = '_' then ' ' else charUpper c) = charUpper c
  have hne : charUpper c ≠ '_' := by
    have hm := charUpper_toNat_mem hcs
    have hp95 : ('_' : Char).toNat = 95 := by decide
    exact char_ne_of_toNat_ne (by omega)
  rw [if_neg hne]

/-- normalize_name is idempotent. -/
theorem normalize_name_idem (s : String) :
    normalize_name (normalize_name s) = normalize_name s := by
  apply String.ext
  have hW : ∀ w ∈ wordsL (removeParenL s.data), w ≠ [] ∧ ∀ c ∈ w, isSlugChar c = true :=
    wordsL_spec _
  have hNF := normalize_name_data s
  have hnp : '(' ∉ (normalize_name s).data := by
    rw [hNF]
    apply joinSep_not_mem (by decide)
    intro tw htw
    obtain ⟨w, hwW, hweq⟩ := List.mem_map.mp htw
    rw [← hweq]
    exact titleUp_not_paren w (hW w hwW).2 false
  have hrp : removeParenL (normalize_name s).data = (normalize_name s).data :=
    removeParenL_no_paren hnp
  have hlower : (normalize_name s).data.map charLower
      = joinSep ' ' (wordsL (removeParenL s.data)) := by
    rw [hNF, joinSep_map]
    rw [show charLower ' ' = ' ' from by decide, List.map_map]
    apply congrArg (joinSep ' ')
    have hstep : ∀ w ∈ wordsL (removeParenL s.data),
        (List.map charLower ∘ fun w => pyTitleAux false (w.map charUpper)) w = id w :=
      fun w hw => map_charLower_titleUp w (hW w hw).2 false
    rw [List.map_congr_left hstep, List.map_id]
  have hwords : wordsL (normalize_name s).data = wordsL (removeParenL s.data) := by
    unfold wordsL
    rw [hlower]
    exact wordsL_of_joinSep _ hW
  have h2 := normalize_name_data (normalize_name s)
  rw [hrp, hwords] at h2
  rw [h2, ← hNF]

/-! ## Unit index lemmas -/

theorem findUnits_cons (k : String) (l : List String) (m : List (String × List String))
    (t : String) :
    findUnits ((k, l) :: m) t = if k = t then l else findUnits m t := rfl

theorem addUnit_cons (k0 : String) (l0 : List String) (m : List (String × List String))
    (k v : String) :
    addUnit ((k0, l0) :: m) k v =
      if k0 = k then (k0, l0 ++ [v]) :: m else (k0, l0) :: addUnit m k v := rfl

theorem addUnit_findUnits (m : List (String × List String)) (k v t : String) :
    findUnits (addUnit m k v) t = findUnits m t ++ (if k = t then [v] else []) := by
  induction m with
  | nil =>
    by_cases hk : k = t <;> simp [addUnit, findUnits, hk]
  | cons kl m ih =>
    obtain ⟨k0, l0⟩ := kl
    rw [addUnit_cons]
    by_cases h0 : k0 = k
    · rw [if_pos h0, findUnits_cons, findUnits_cons]
      by_cases ht : k0 = t
      · rw [if_pos ht, if_pos ht, if_pos (h0 ▸ ht)]
      · rw [if_neg ht, if_neg ht, if_neg (fun he => ht (h0.trans he)), List.append_nil]
    · rw [if_neg h0, findUnits_cons, findUnits_cons]
      by_cases ht : k0 = t
      · rw [if_pos ht, if_pos ht, if_neg (fun he => h0 (ht.trans he.symm)), List.append_nil]
      · rw [if_neg ht, if_neg ht, ih]

theorem addUnit_keys_mem (m : List (String × List String)) (k v a : String) :
    a ∈ (addUnit m k v).map Prod.fst ↔ a ∈ m.map Prod.fst ∨ a = k := by
  induction m with
  | nil => simp [addUnit]
  | cons kl m ih =>
    obtain ⟨k0, l0⟩ := kl
    rw [addUnit_cons]
    by_cases h0 : k0 = k
    · rw [if_pos h0]
      subst h0
      simp only [List.map_cons, List.mem_cons]
      tauto
    · rw [if_neg h0]
      simp only [List.map_cons, List.mem_cons, ih]
      tauto

theorem addUnit_keys_nodup (m : List (String × List String)) (k v : String)
    (h : (m.map Prod.fst).Nodup) : ((addUnit m k v).map Prod.fst).Nodup := by
  induction m with
  | nil => simp [addUnit]
  | cons kl m ih =>
    obtain ⟨k0, l0⟩ := kl
    rw [addUnit_cons]
    simp only [List.map_cons, List.nodup_cons] at h
    by_cases h0 : k0 = k
    · rw [if_pos h0]
      simp only [List.map_cons, List.nodup_cons]
      exact h
    · rw [if_neg h0]
      simp only [List.map_cons, List.nodup_cons]
      refine ⟨?_, ih h.2⟩
      intro hmem
      rcases (addUnit_keys_mem m k v k0).mp hmem with hh | hh
      · exact h.1 hh
      · exact h0 hh

theorem findUnits_of_mem {m : List (String × List String)} {t : String} {l : List String}
    (hnd : (m.map Prod.fst).Nodup) (hmem : (t, l) ∈ m) : findUnits m t = l := by
  induction m with
  | nil => simp at hmem
  | cons kl m ih =>
    obtain ⟨k0, l0⟩ := kl
    simp only [List.map_cons, List.nodup_cons] at hnd
    rw [findUnits_cons]
    rcases List.mem_cons.mp hmem with hh | hh
    · have h1 : k0 = t := (congrArg Prod.fst hh).symm
      have h2 : l = l0 := congrArg Prod.snd hh
      rw [if_pos h1]
      exact h2.symm
    · have hne : k0 ≠ t := by
        intro he
        subst he
        exact hnd.1 (List.mem_map.mpr ⟨(k0, l), hh, rfl⟩)
      rw [if_neg hne]
      exact ih hnd.2 hh

theorem mem_of_key_mem {m : List (String × List String)} {t : String}
    (h : t ∈ m.map Prod.fst) : (t, findUnits m t) ∈ m := by
  induction m with
  | nil => simp at h
  | cons kl m ih =>
    obtain ⟨k0, l0⟩ := kl
    rw [findUnits_cons]
    by_cases hk : k0 = t
    · subst hk
      rw [if_pos rfl]
      exact List.mem_cons_self _ _
    · rw [if_neg hk]
      simp only [List.map_cons, List.mem_cons] at h
      rcases h with h | h
      · exact absurd h.symm hk
      · exact List.mem_cons_of_mem _ (ih h)

theorem group_fold_findUnits (pre : String) (es : List (String × Nat)) :
    ∀ (m : List (String × List String)) (t : String),
      findUnits (es.foldl (fun m2 e => addUnit m2 e.1 (pre ++ e.1)) m) t
        = findUnits m t ++ (es.filter (fun e => e.1 = t)).map (fun e => pre ++ e.1) := by
  induction es with
  | nil => intro m t; simp
  | cons e es ih =>
    intro m t
    rw [List.foldl_cons, ih, addUnit_findUnits, List.filter_cons]
    by_cases he : e.1 = t
    · simp [he, List.append_assoc]
    · simp [he]

theorem filter_key_map (es : List (String × Nat)) (t : String) (pre : String)
    (hnd : (es.map Prod.fst).Nodup) :
    (es.filter (fun e => e.1 = t)).map (fun e => pre ++ e.1)
      = if t ∈ es.map Prod.fst then [pre ++ t] else [] := by
  induction es with
  | nil => simp
  | cons e es ih =>
    simp only [List.map_cons, List.nodup_cons] at hnd
    rw [List.filter_cons]
    by_cases he : e.1 = t
    · have hnotin : t ∉ es.map Prod.fst := he ▸ hnd.1
      have hfe : es.filter (fun e2 => decide (e2.1 = t)) = [] := by
        rw [List.filter_eq_nil_iff]
        intro x hx
        simp only [decide_eq_true_eq]
        intro hxt
        exact hnotin (hxt ▸ List.mem_map.mpr ⟨x, hx, rfl⟩)
      simp [he, hfe]
    · rw [if_neg (by simpa using he), ih hnd.2]
      have hiff : (t ∈ (e.1 :: es.map Prod.fst)) ↔ t ∈ es.map Prod.fst := by
        simp only [List.mem_cons]
        constructor
        · rintro (h | h)
          · exact absurd h.symm he
          · exact h
        · exact Or.inr
      simp only [List.map_cons]
      rw [if_congr hiff rfl rfl]

theorem group_fold_keys (pre : String) (es : List (String × Nat)) :
    ∀ (m : List (String × List String)) (a : String),
      (a ∈ ((es.foldl (fun m2 e => addUnit m2 e.1 (pre ++ e.1)) m).map Prod.fst))
        ↔ a ∈ m.map Prod.fst ∨ a ∈ es.map Prod.fst := by
  induction es with
  | nil => intro m a; simp
  | cons e es ih =>
    intro m a
    rw [List.foldl_cons, ih, addUnit_keys_mem]
    simp only [List.map_cons, List.mem_cons]
    tauto

theorem group_fold_keys_nodup (pre : String) (es : List (String × Nat)) :
    ∀ m, ((m.map Prod.fst).Nodup) →
      (((es.foldl (fun m2 e => addUnit m2 e.1 (pre ++ e.1)) m)).map Prod.fst).Nodup := by
  induction es with
  | nil => intro m h; simpa using h
  | cons e es ih =>
    intro m h
    rw [List.foldl_cons]
    exact ih _ (addUnit_keys_nodup _ _ _ h)

theorem collect_fold_findUnits :
    ∀ (scales : ScalesTable), (∀ g ∈ scales, (g.2.map Prod.fst).Nodup) →
      ∀ (m : List (String × List String)) (t : String),
        findUnits (scales.foldl (fun m g => g.2.foldl
            (fun m2 e => addUnit m2 e.1 (format_for_class_name g.1 ++ "." ++ e.1)) m) m) t
          = findUnits m t
            ++ (scales.filter (fun g => t ∈ g.2.map Prod.fst)).map
                (fun g => format_for_class_name g.1 ++ "." ++ t) := by
  intro scales
  induction scales with
  | nil => intro _ m t; simp
  | cons g gs ih =>
    intro hinner m t
    rw [List.foldl_cons]
    rw [ih (fun x hx => hinner x (by simp [hx]))]
    rw [group_fold_findUnits (format_for_class_name g.1 ++ ".") g.2 m t]
    rw [filter_key_map g.2 t (format_for_class_name g.1 ++ ".") (hinner g (by simp))]
    rw [List.filter_cons]
    by_cases hm : t ∈ g.2.map Prod.fst
    · simp [hm, List.append_assoc]
    · simp [hm]

theorem collect_fold_keys :
    ∀ (scales : ScalesTable) (m : List (String × List String)) (a : String),
      (a ∈ ((scales.foldl (fun m g => g.2.foldl
          (fun m2 e => addUnit m2 e.1 (format_for_class_name g.1 ++ "." ++ e.1)) m) m).map
            Prod.fst))
        ↔ a ∈ m.map Prod.fst ∨ ∃ g ∈ scales, a ∈ g.2.map Prod.fst := by
  intro scales
  induction scales with
  | nil => intro m a; simp
  | cons g gs ih =>
    intro m a
    rw [List.foldl_cons, ih, group_fold_keys]
    simp only [List.mem_cons]
    constructor
    · rintro ((h | h) | ⟨g2, hg2, hg3⟩)
      · exact Or.inl h
      · exact Or.inr ⟨g, Or.inl rfl, h⟩
      · exact Or.inr ⟨g2, Or.inr hg2, hg3⟩
    · rintro (h | ⟨g2, (rfl | hg2), hg3⟩)
      · exact Or.inl (Or.inl h)
      · exact Or.inl (Or.inr hg3)
      · exact Or.inr ⟨g2, hg2, hg3⟩

theorem collect_fold_keys_nodup :
    ∀ (scales : ScalesTable) (m : List (String × List String)),
      ((m.map Prod.fst).Nodup) →
      (((scales.foldl (fun m g => g.2.foldl
          (fun m2 e => addUnit m2 e.1 (format_for_class_name g.1 ++ "." ++ e.1)) m) m)).map
            Prod.fst).Nodup := by
  intro scales
  induction scales with
  | nil => intro m h; simpa using h
  | cons g gs ih =>
    intro m h
    rw [List.foldl_cons]
    exact ih _ (group_fold_keys_nodup _ _ _ h)

/-! ## Claim theorems -/

/-- C1 counterexample: the two distinct raw labels "Temperature (Air)" and
"Temperature (Water)" normalize (with parenthesis stripping) to the same
token, yet `normalize_scale_definition` raises no error: the build
succeeds and silently merges them into a single TEMPERATURE entry carrying
the later id, contradicting the claim that a name collision aborts the
build. -/
theorem c1_collision_counterexample :
    ("Temperature (Air)" : String) ≠ "Temperature (Water)"
    ∧ enum_name_format "Temperature (Air)" true = enum_name_format "Temperature (Water)" true
    ∧ normalize_scale_definition
        [("0x00", "Temperature (Air)"), ("0x01", "Temperature (Water)")] =
      some [("TEMPERATURE", 1)] :=
  ⟨by decide, by decide, by decide⟩

/-- C1 amended: when two labels of one scale table normalize to the same
token, the build raises no error; the later entry silently overwrites the
earlier one, leaving a single entry for that token with the later label's
id. -/
theorem c1_collision_overwrites (h1 h2 l1 l2 : String) (n1 n2 : Nat)
    (hx1 : int_base16 h1 = some n1) (hx2 : int_base16 h2 = some n2)
    (hcol : enum_name_format l1 true = enum_name_format l2 true) :
    normalize_scale_definition [(h1, l1), (h2, l2)] =
      some [(enum_name_format l2 true, n2)] := by
  unfold normalize_scale_definition
  simp [List.foldlM, hx1, hx2, assocSet, ← hcol, sortByKey, List.insertionSort]

/-- C1 witness: the overwrite theorem applied to the Temperature (Air) /
Temperature (Water) collision. -/
theorem c1_collision_overwrites_witness :
    normalize_scale_definition
        [("0x00", "Temperature (Air)"), ("0x01", "Temperature (Water)")] =
      some [(enum_name_format "Temperature (Water)" true, 1)] :=
  c1_collision_overwrites "0x00" "0x01" "Temperature (Air)" "Temperature (Water)" 0 1
    (by decide) (by decide) (by decide)

/-- C4 counterexample: with an empty scale-group table, a sensor whose
symbolic reference names a nonexistent group is processed successfully —
no resolution error is raised, generation proceeds — and the sensor is
left pointing at the group name "Nonexistent" even though no group of that
name exists. -/
theorem c4_unresolved_reference_counterexample :
    processSensors [] [⟨"0x01", "Air temperature", ScaleRef.symbolic "$SCALES:nonexistent"⟩] =
      some ([], [("AIR_TEMPERATURE", ⟨1, "Air temperature", "Nonexistent"⟩)])
    ∧ "Nonexistent" ∉ ([] : ScalesTable).map Prod.fst :=
  ⟨by decide, by simp⟩

/-- C4 amended: a symbolic scale reference is resolved purely textually —
the sensor's scale field is set to the normalized display name of the
reference string with the "$SCALES:" tag removed — with no check that a
built group of that name exists; processing succeeds whatever the
scale-group table contains. -/
theorem c4_symbolic_no_existence_check (st : ScalesTable × SensorsTable)
    (k lbl ref : String) (n : Nat) (hx : int_base16 k = some n) :
    processOne st ⟨k, lbl, ScaleRef.symbolic ref⟩ =
      some (st.1, assocSet st.2 (sensorToken n lbl)
        ⟨n, lbl, normalize_name (replaceAll "$SCALES:" "" ref)⟩) := by
  unfold processOne
  simp [hx]

/-- C4 witness: the textual-resolution theorem applied to a dangling
reference over the empty table. -/
theorem c4_symbolic_no_existence_check_witness :
    processOne (([], []) : ScalesTable × SensorsTable)
        ⟨"0x01", "Air temperature", ScaleRef.symbolic "$SCALES:nonexistent"⟩ =
      some ([], assocSet [] (sensorToken 1 "Air temperature")
        ⟨1, "Air temperature", normalize_name (replaceAll "$SCALES:" "" "$SCALES:nonexistent")⟩) :=
  c4_symbolic_no_existence_check ([], []) "0x01" "Air temperature" "$SCALES:nonexistent" 1
    (by decide)

/-- C6: normalizing a label for a sensor whose id is one of the two
exception ids 87 and 88 keeps the parenthetical content (the
parenthesis-stripping flag is false), so "Distance (ft/m)" becomes
DISTANCE_FT_M; for every other id the parenthetical content is removed
first and the same label yields DISTANCE. -/
theorem c6_exception_id_parenthesis (id_ : Nat) (label : String) :
    (id_ = 87 ∨ id_ = 88 →
      sensorToken id_ label = enum_name_format label false
      ∧ sensorToken id_ "Distance (ft/m)" = "DISTANCE_FT_M")
    ∧ (id_ ≠ 87 ∧ id_ ≠ 88 →
      sensorToken id_ label = enum_name_format label true
      ∧ sensorToken id_ "Distance (ft/m)" = "DISTANCE") := by
  constructor
  · intro h
    have hb : (id_ == 87 || id_ == 88) = true := by
      rcases h with h | h <;> simp [h]
    unfold sensorToken
    rw [hb]
    exact ⟨rfl, by decide⟩
  · intro h
    have hb : (id_ == 87 || id_ == 88) = false := by
      simp [h.1, h.2]
    unfold sensorToken
    rw [hb]
    exact ⟨rfl, by decide⟩

/-- C6 witness: the exception rule evaluated at ids 87 and 3. -/
theorem c6_exception_id_parenthesis_witness :
    sensorToken 87 "Distance (ft/m)" = "DISTANCE_FT_M"
    ∧ sensorToken 3 "Distance (ft/m)" = "DISTANCE" :=
  ⟨((c6_exception_id_parenthesis 87 "Distance (ft/m)").1 (Or.inl rfl)).2,
   ((c6_exception_id_parenthesis 3 "Distance (ft/m)").2 ⟨by decide, by decide⟩).2⟩

/-- C7: a default scale group declared as "temperature" is keyed under the
normalized name "Temperature"; a sensor with the symbolic reference
"$SCALES:temperature" ends up associated with exactly that name; a sensor
with the inline Celsius/Fahrenheit mapping produces a new group keyed by
the sensor's own token with entries CELSIUS -> 0 and FAHRENHEIT -> 1, its
scale field holds the sensor token's display name, and both spellings
render the same scale class name. -/
theorem c7_scale_resolution :
    buildDefaultScales [("temperature", [("0x00", "Celsius"), ("0x01", "Fahrenheit")])] =
      some [("Temperature", [("CELSIUS", 0), ("FAHRENHEIT", 1)])]
    ∧ processSensors [("Temperature", [("CELSIUS", 0), ("FAHRENHEIT", 1)])]
        [⟨"0x01", "Air temperature", ScaleRef.symbolic "$SCALES:temperature"⟩,
         ⟨"0x02", "Water temperature",
            ScaleRef.inlineDef [("0x00", "Celsius"), ("0x01", "Fahrenheit")]⟩] =
      some ([("Temperature", [("CELSIUS", 0), ("FAHRENHEIT", 1)]),
             ("WATER_TEMPERATURE", [("CELSIUS", 0), ("FAHRENHEIT", 1)])],
            [("AIR_TEMPERATURE", ⟨1, "Air temperature", "Temperature"⟩),
             ("WATER_TEMPERATURE", ⟨2, "Water temperature", "Water Temperature"⟩)])
    ∧ format_for_class_name "Water Temperature" = format_for_class_name "WATER_TEMPERATURE" :=
  ⟨by decide, by decide, by decide⟩

/-- C9: the dirty-tree check at lines 271..280 can never terminate the
process — `subprocess.run` is called without `capture_output`, so the
`stdout` attribute compared against `None` is always `None` and
`sys.exit(1)` is unreachable, whatever `git diff --stat` reports. The
claimed non-zero exit on a dirty tree therefore never happens. -/
theorem c9_dirty_check_never_exits (diffOutput : String) :
    gitDiffExitCode diffOutput = 0 := rfl

/-- C5: when no line of the previous file contains the marker text,
splicing fails (the script dies on StopIteration) and no output text is
produced for writing. -/
theorem c5_missing_marker (newLines prev : List String)
    (h : ∀ l ∈ prev, hasSub endMarkerText.data l.data = false) :
    splice newLines prev = none ∧ write_text newLines prev = none := by
  have hf := findMarkerIdx_eq_none h
  refine ⟨?_, ?_⟩ <;> simp [splice, write_text, hf]

/-- C5 witness: a previous file with the marker removed. -/
theorem c5_missing_marker_witness :
    splice ["A"] ["x", "y"] = none ∧ write_text ["A"] ["x", "y"] = none :=
  c5_missing_marker ["A"] ["x", "y"] (by decide)

/-- C2: for every previous-file line list containing the marker (first
occurrence at index i), the spliced output is exactly the fresh lines
followed verbatim and in order by every line from index i + 6 on; and when
the previous file has nothing past that offset the preserved region is
empty and splicing still succeeds. The newline-free hypothesis holds for
any line list produced by `splitlines`. -/
theorem c2_suffix_roundtrip (newLines prev : List String) (i : Nat)
    (hm : findMarkerIdx prev = some i)
    (hnl : ∀ l ∈ prev, ∀ c ∈ l.data, (c == '\n') = false) :
    splice newLines prev = some (newLines ++ prev.drop (i + 6))
    ∧ (prev.length ≤ i + 6 → splice newLines prev = some newLines) := by
  have hmap : (prev.drop (i + 6)).map stripNl = prev.drop (i + 6) := by
    have h1 : (prev.drop (i + 6)).map stripNl = (prev.drop (i + 6)).map id :=
      List.map_congr_left (fun l hl => stripNl_eq_self (hnl l (List.mem_of_mem_drop hl)))
    rw [h1, List.map_id]
  have hsp : splice newLines prev =
      if prev.length > i + 6 then some (newLines ++ (prev.drop (i + 6)).map stripNl)
      else some newLines := by
    unfold splice
    rw [hm]
  have hmain : splice newLines prev = some (newLines ++ prev.drop (i + 6)) := by
    rw [hsp]
    by_cases hlen : prev.length > i + 6
    · rw [if_pos hlen, hmap]
    · rw [if_neg hlen]
      have hd : prev.drop (i + 6) = [] := List.drop_eq_nil_of_le (by omega)
      rw [hd, List.append_nil]
  refine ⟨hmain, fun hle => ?_⟩
  have hd : prev.drop (i + 6) = [] := List.drop_eq_nil_of_le hle
  rw [hmain, hd, List.append_nil]

theorem splice_none {newLines prev : List String} (h : findMarkerIdx prev = none) :
    splice newLines prev = none := by
  unfold splice
  rw [h]

theorem splice_some {newLines prev : List String} {i : Nat}
    (h : findMarkerIdx prev = some i) :
    splice newLines prev =
      if prev.length > i + 6 then some (newLines ++ (prev.drop (i + 6)).map stripNl)
      else some newLines := by
  unfold splice
  rw [h]

/-- C3: idempotence of regeneration: for fixed autogenerated lines — an
arbitrary marker-free body followed by the end-marker block, exactly the
shape the renderer emits for fixed upstream documents — splicing those
lines against the output of a previous splice of the same lines
reproduces that output unchanged. -/
theorem c3_idempotent_regeneration (body prev out : List String)
    (hb : ∀ l ∈ body, hasSub endMarkerText.data l.data = false)
    (h1 : splice (body ++ endBlockLines) prev = some out) :
    splice (body ++ endBlockLines) out = some out := by
  have hfa : findMarkerIdx (body ++ endBlockLines) = some (2 + body.length) := by
    rw [findMarkerIdx_append_none endBlockLines (findMarkerIdx_eq_none hb)]
    have h2 : findMarkerIdx endBlockLines = some 2 := by decide
    rw [h2]
    rfl
  cases hp : findMarkerIdx prev with
  | none =>
    rw [splice_none hp] at h1
    exact absurd h1 (by simp)
  | some i =>
    have hrest : ∃ rest : List String, out = (body ++ endBlockLines) ++ rest.map stripNl := by
      rw [splice_some hp] at h1
      by_cases hlen : prev.length > i + 6
      · rw [if_pos hlen] at h1
        exact ⟨prev.drop (i + 6), (Option.some.inj h1).symm⟩
      · rw [if_neg hlen] at h1
        refine ⟨[], ?_⟩
        rw [← Option.some.inj h1]
        simp
    obtain ⟨rest, hout⟩ := hrest
    have hfo : findMarkerIdx out = some (2 + body.length) := by
      rw [hout]
      exact findMarkerIdx_append_some _ hfa
    have hstart : 2 + body.length + 6 = (body ++ endBlockLines).length := by
      simp [endBlockLines]
      omega
    have hlen_out : out.length = (body ++ endBlockLines).length + (rest.map stripNl).length := by
      rw [hout, List.length_append]
    rw [splice_some hfo]
    by_cases hz : 0 < (rest.map stripNl).length
    · rw [if_pos (by omega)]
      congr 1
      rw [hout]
      have hdrop : ((body ++ endBlockLines) ++ rest.map stripNl).drop (2 + body.length + 6)
          = rest.map stripNl := by
        rw [hstart, List.drop_left]
      rw [hdrop, List.map_map]
      congr 1
      exact List.map_congr_left (fun l _ => stripNl_idem l)
    · rw [if_neg (by omega)]
      have hz0 : rest.map stripNl = [] := by
        cases hzz : rest.map stripNl with
        | nil => rfl
        | cons a as =>
          rw [hzz] at hz
          simp at hz
      rw [hout, hz0, List.append_nil]

/-- C3 witness: a previous file that is itself the output of a splice of
the fresh lines (body "x" plus end block, tail line "tail") splices to
itself again. -/
theorem c3_idempotent_regeneration_witness :
    splice (["x"] ++ endBlockLines) ((["x"] ++ endBlockLines) ++ ["tail"]) =
      some ((["x"] ++ endBlockLines) ++ ["tail"]) :=
  c3_idempotent_regeneration ["x"] ((["x"] ++ endBlockLines) ++ ["tail"])
    ((["x"] ++ endBlockLines) ++ ["tail"]) (by decide) (by decide)

/-- C2 witness: a concrete previous file with a two-line hand-written
suffix, preserved verbatim after the fresh lines. -/
theorem c2_suffix_roundtrip_witness :
    splice ["A"] ["x **END OF AUTOGENERATED CONTENT** y", "a", "b", "c", "d", "e", "k1", "k2"] =
      some ["A", "k1", "k2"] := by
  have h := c2_suffix_roundtrip ["A"]
    ["x **END OF AUTOGENERATED CONTENT** y", "a", "b", "c", "d", "e", "k1", "k2"] 0
    (by decide) (by decide)
  simpa using h.1

theorem string_append_right_cancel {a b c : String} (h : a ++ c = b ++ c) : a = b := by
  apply String.ext
  have hd := congrArg String.data h
  rw [String.data_append, String.data_append] at hd
  exact List.append_cancel_right hd

theorem refs_nodup_general (F : String × List (String × Nat) → String)
    (p : String × List (String × Nat) → Bool) (t : String) (scales : ScalesTable)
    (hcls : (scales.map F).Nodup) :
    ((scales.filter p).map (fun g => F g ++ "." ++ t)).Nodup := by
  have h1 : ((scales.filter p).map F).Nodup :=
    List.Nodup.sublist (List.Sublist.map F (List.filter_sublist scales)) hcls
  have h2 : (scales.filter p).map (fun g => F g ++ "." ++ t)
      = ((scales.filter p).map F).map (fun s => s ++ "." ++ t) := by
    rw [List.map_map]
    exact List.map_congr_left (fun g _ => rfl)
  rw [h2]
  apply List.Nodup.map _ h1
  intro a b hab
  exact string_append_right_cancel (string_append_right_cancel hab)

/-- C8: the unit index is complete and ordered — under the data
invariants of the built tables (distinct rendered class names across
groups, distinct tokens within each group): the top-level keys are
strictly sorted; every entry's list is strictly sorted and contains a
reference exactly for each group defining the token (class name + "." +
token), so no omissions and no duplicates; and every token defined in any
group has an entry. -/
theorem c8_unit_index (scales : ScalesTable)
    (hcls : (scales.map (fun g => format_for_class_name g.1)).Nodup)
    (hinner : ∀ g ∈ scales, (g.2.map Prod.fst).Nodup) :
    ((unitIndex scales).map Prod.fst).Pairwise strLt
    ∧ (∀ t l, (t, l) ∈ unitIndex scales →
        l.Pairwise strLt
        ∧ ∀ r, r ∈ l ↔ ∃ g ∈ scales, (∃ n, (t, n) ∈ g.2)
            ∧ r = format_for_class_name g.1 ++ "." ++ t)
    ∧ (∀ t, (∃ g ∈ scales, ∃ n, (t, n) ∈ g.2) → ∃ l, (t, l) ∈ unitIndex scales) := by
  have hM : ∀ t, findUnits (collectUnits scales) t
      = (scales.filter (fun g => t ∈ g.2.map Prod.fst)).map
          (fun g => format_for_class_name g.1 ++ "." ++ t) := by
    intro t
    have h := collect_fold_findUnits scales hinner [] t
    simpa using h
  have hkeysNodup : ((collectUnits scales).map Prod.fst).Nodup :=
    collect_fold_keys_nodup scales [] (by simp)
  have hkeysMem : ∀ a, a ∈ (collectUnits scales).map Prod.fst
      ↔ ∃ g ∈ scales, a ∈ g.2.map Prod.fst := by
    intro a
    have h := collect_fold_keys scales [] a
    simpa using h
  have hperm : (sortByKey (collectUnits scales)).Perm (collectUnits scales) :=
    List.perm_insertionSort keyLe (collectUnits scales)
  have hsorted : List.Sorted keyLe (sortByKey (collectUnits scales)) :=
    List.sorted_insertionSort keyLe (collectUnits scales)
  have hkeysS : ((sortByKey (collectUnits scales)).map Prod.fst).Nodup :=
    (hperm.map Prod.fst).nodup_iff.mpr hkeysNodup
  have hui_keys : (unitIndex scales).map Prod.fst
      = (sortByKey (collectUnits scales)).map Prod.fst := by
    unfold unitIndex
    rw [List.map_map]
    exact List.map_congr_left (fun kl _ => rfl)
  have hrefs_nodup : ∀ t,
      ((scales.filter (fun g => t ∈ g.2.map Prod.fst)).map
        (fun g => format_for_class_name g.1 ++ "." ++ t)).Nodup := fun t =>
    refs_nodup_general (fun g => format_for_class_name g.1)
      (fun g => t ∈ g.2.map Prod.fst) t scales hcls
  have hkey_iff : ∀ (t : String) (g : String × List (String × Nat)),
      (t ∈ g.2.map Prod.fst) ↔ ∃ n, (t, n) ∈ g.2 := by
    intro t g
    rw [List.mem_map]
    constructor
    · rintro ⟨e, he, rfl⟩
      exact ⟨e.2, by simpa [Prod.mk.eta] using he⟩
    · rintro ⟨n, hn⟩
      exact ⟨(t, n), hn, rfl⟩
  refine ⟨?_, ?_, ?_⟩
  · rw [hui_keys]
    have hle : ((sortByKey (collectUnits scales)).map Prod.fst).Pairwise strLe :=
      List.pairwise_map.mpr hsorted
    exact (hle.and hkeysS).imp (fun h => strLt_of_strLe_ne h.1 h.2)
  · intro t l hmem
    unfold unitIndex at hmem
    obtain ⟨kl, hklS, heq⟩ := List.mem_map.mp hmem
    obtain ⟨he1, he2⟩ := Prod.mk.injEq .. ▸ heq
    have hklM : kl ∈ collectUnits scales := hperm.mem_iff.mp hklS
    have hfind : findUnits (collectUnits scales) t = kl.2 := by
      apply findUnits_of_mem hkeysNodup
      rw [show (t, kl.2) = kl from by rw [← he1, Prod.mk.eta]]
      exact hklM
    have hl : l = kl.2.insertionSort strLe := he2.symm
    have hlperm : (kl.2.insertionSort strLe).Perm kl.2 := List.perm_insertionSort strLe kl.2
    have hrefs : kl.2 = (scales.filter (fun g => t ∈ g.2.map Prod.fst)).map
        (fun g => format_for_class_name g.1 ++ "." ++ t) := by
      rw [← hfind, hM t]
    constructor
    · have hnd : l.Nodup := by
        rw [hl]
        exact hlperm.nodup_iff.mpr (by rw [hrefs]; exact hrefs_nodup t)
      have hsl : l.Pairwise strLe := by
        rw [hl]
        exact List.sorted_insertionSort strLe kl.2
      exact (hsl.and hnd).imp (fun h => strLt_of_strLe_ne h.1 h.2)
    · intro r
      rw [hl, hlperm.mem_iff, hrefs, List.mem_map]
      constructor
      · rintro ⟨g, hg, rfl⟩
        have hgf := List.mem_filter.mp hg
        exact ⟨g, hgf.1, (hkey_iff t g).mp (by simpa using hgf.2), rfl⟩
      · rintro ⟨g, hg, hn, rfl⟩
        refine ⟨g, List.mem_filter.mpr ⟨hg, by simpa using (hkey_iff t g).mpr hn⟩, rfl⟩
  · intro t ht
    obtain ⟨g, hg, n, hn⟩ := ht
    have hkey : t ∈ (collectUnits scales).map Prod.fst :=
      (hkeysMem t).mpr ⟨g, hg, (hkey_iff t g).mpr ⟨n, hn⟩⟩
    have hpair : (t, findUnits (collectUnits scales) t) ∈ collectUnits scales :=
      mem_of_key_mem hkey
    have hpairS : (t, findUnits (collectUnits scales) t) ∈ sortByKey (collectUnits scales) :=
      hperm.mem_iff.mpr hpair
    refine ⟨(findUnits (collectUnits scales) t).insertionSort strLe, ?_⟩
    unfold unitIndex
    exact List.mem_map.mpr ⟨(t, findUnits (collectUnits scales) t), hpairS, rfl⟩

/-- C8 witness: a concrete two-group table with a shared CELSIUS token. -/
theorem c8_unit_index_witness :
    ((unitIndex [("Temperature", [("CELSIUS", 0), ("FAHRENHEIT", 1)]),
        ("WATER_TEMPERATURE", [("CELSIUS", 0)])]).map Prod.fst).Pairwise strLt :=
  (c8_unit_index
    [("Temperature", [("CELSIUS", 0), ("FAHRENHEIT", 1)]),
     ("WATER_TEMPERATURE", [("CELSIUS", 0)])]
    (by decide) (by decide)).1

/-- C10: display-name normalization is idempotent — normalizing an already
normalized name changes nothing — and consequently deriving the scale
class name from a group token and from that token's display name yields
the same class name, which keeps the sensor-to-scale-class map consistent
with the per-group class definitions emitted for inline-defined groups. -/
theorem c10_normalization_idempotent :
    (∀ s : String, normalize_name (normalize_name s) = normalize_name s)
    ∧ ∀ t : String, format_for_class_name (normalize_name t) = format_for_class_name t := by
  refine ⟨normalize_name_idem, fun t => ?_⟩
  unfold format_for_class_name
  rw [normalize_name_idem t]

end MultilevelSensor
